import Mathlib

/-!
Shallow embedding of the OpenThread SRP server (`src/core/net/srp_server.hpp`).

The repository provides only the class interface (`srp_server.hpp`); the
method bodies live in a `.cpp` file that is not part of the sources.
Definitions below therefore come from two places:
  - inline code in the header (e.g. `Host::IsDeleted`, `Server::AllocateId`,
    the default lease constants) is translated directly; and
  - behaviour whose body is missing is modelled from the specification
    (each such definition carries a doc comment starting with
    `Modelled from the spec:`).

Machine integers are modelled as `Nat`; the only place where 32-bit
overflow matters is the `mServiceUpdateId` counter, where the post
increment is taken modulo `2 ^ 32`.
-/

set_option maxHeartbeats 1000000

namespace Srp

/-- An ECDSA P-256 key record (`Dns::Ecdsa256KeyRecord`), modelled opaquely
as its byte content; only equality of keys matters to the server logic. -/
structure Ecdsa256KeyRecord where
  bytes : List Nat
deriving Repr, DecidableEq

/-- A server-side SRP service (`Server::Service`).  The intrusive `mNext`
pointer of the source's linked list is represented by membership in the
owning host's `mServices` list, and the non-owning `mHost` back pointer is
implied by that ownership. -/
structure Service where
  mFullName : String
  mPriority : Nat
  mWeight : Nat
  mPort : Nat
  mTxtData : List Nat
  mTimeLastUpdate : Nat
  mIsDeleted : Bool
deriving Repr, DecidableEq

/-- `Service::IsDeleted` (header, inline): returns the `mIsDeleted` flag. -/
def Service.IsDeleted (s : Service) : Bool := s.mIsDeleted

/-- `Service::Matches` against a full service-instance name. -/
def Service.Matches (s : Service) (aFullName : String) : Bool :=
  s.mFullName == aFullName

/-- Modelled from the spec: `Service::ClearResources` — a deleted Service
retains its name (tombstone semantics) but clears its descriptive data. -/
def Service.ClearResources (s : Service) : Service :=
  { s with mPriority := 0, mWeight := 0, mPort := 0, mTxtData := [] }

/-- Modelled from the spec: marking a Service deleted while retaining its
name, as done when its owning host is deleted (`Host::RemoveService` with
`aRetainName = true`; body missing from the sources). -/
def Service.markDeleted (s : Service) : Service :=
  { s.ClearResources with mIsDeleted := true }

/-- A registered host (`Server::Host`).  The intrusive `mNext` pointer is
represented by membership in the registry's `mHosts` list. -/
structure Host where
  mFullName : String
  mAddresses : List Nat
  mKey : Option Ecdsa256KeyRecord
  mLease : Nat
  mKeyLease : Nat
  mTimeLastUpdate : Nat
  mServices : List Service
deriving Repr, DecidableEq

/-- `Host::IsDeleted` (header, inline): a host is deleted iff `mLease == 0`. -/
def Host.IsDeleted (h : Host) : Bool := h.mLease == 0

/-- `Host::Matches` against a full host name. -/
def Host.Matches (h : Host) (aFullName : String) : Bool :=
  h.mFullName == aFullName

/-- Modelled from the spec: `Host::GetExpireTime` — the host's lease expiry
instant, `mTimeLastUpdate` plus the lease (seconds) in milliseconds. -/
def Host.GetExpireTime (h : Host) : Nat :=
  h.mTimeLastUpdate + h.mLease * 1000

/-- Modelled from the spec: `Host::GetKeyExpireTime` — the instant the
host's key-lease elapses, after which the host is purged entirely. -/
def Host.GetKeyExpireTime (h : Host) : Nat :=
  h.mTimeLastUpdate + h.mKeyLease * 1000

/-- Modelled from the spec: transitioning a Host to the deleted state —
`lease` becomes 0, addresses are cleared, every owned Service is deleted
(name and key are retained). -/
def Host.makeDeleted (h : Host) (aKeyLease : Nat) (aTime : Nat) : Host :=
  { h with mLease := 0, mKeyLease := aKeyLease, mTimeLastUpdate := aTime,
           mAddresses := [], mServices := h.mServices.map Service.markDeleted }

/-- Default minimum lease time, 30 min in seconds (header). -/
def kDefaultMinLease : Nat := 60 * 30

/-- Default maximum lease time, 2 hours in seconds (header). -/
def kDefaultMaxLease : Nat := 3600 * 2

/-- Default minimum key-lease time, 1 day in seconds (header). -/
def kDefaultMinKeyLease : Nat := 3600 * 24

/-- Default maximum key-lease time, 14 days in seconds (header). -/
def kDefaultMaxKeyLease : Nat := 3600 * 24 * 14

/-- LEASE and KEY-LEASE configuration (`Server::LeaseConfig`). -/
structure LeaseConfig where
  mMinLease : Nat
  mMaxLease : Nat
  mMinKeyLease : Nat
  mMaxKeyLease : Nat
deriving Repr, DecidableEq

/-- The default-constructed `LeaseConfig` (header constants). -/
def LeaseConfig.default : LeaseConfig :=
  ⟨kDefaultMinLease, kDefaultMaxLease, kDefaultMinKeyLease, kDefaultMaxKeyLease⟩

/-- Modelled from the spec: `LeaseConfig::IsValid` — `min ≤ max` must hold
for both the lease pair and the key-lease pair. -/
def LeaseConfig.IsValid (c : LeaseConfig) : Bool :=
  c.mMinLease ≤ c.mMaxLease && c.mMinKeyLease ≤ c.mMaxKeyLease

/-- Modelled from the spec: `LeaseConfig::GrantLease` — a requested lease is
clamped into `[mMinLease, mMaxLease]` before being granted, except that a
requested lease of exactly 0 (explicit deletion) is granted as 0. -/
def LeaseConfig.GrantLease (c : LeaseConfig) (aLease : Nat) : Nat :=
  if aLease == 0 then 0 else max c.mMinLease (min c.mMaxLease aLease)

/-- Modelled from the spec: `LeaseConfig::GrantKeyLease` — the analogous
clamping law for the key-lease bounds. -/
def LeaseConfig.GrantKeyLease (c : LeaseConfig) (aKeyLease : Nat) : Nat :=
  if aKeyLease == 0 then 0 else max c.mMinKeyLease (min c.mMaxKeyLease aKeyLease)

/-- DNS update response codes (from `Dns::UpdateHeader::Response`), restricted
to the outcomes the SRP server produces; `Unauthorized` stands for the
signature-verification failure outcome and `NameConflict` for the
name-exists (YXDomain) rejection. -/
inductive Response where
  | Success
  | FormatError
  | ServerFailure
  | NameConflict
  | Refused
  | Unauthorized
deriving Repr, DecidableEq

/-- Metadata of one outstanding SRP update transaction
(`Server::UpdateMetadata`).  The DNS header and peer message info are
modelled by the message id and an abstract peer identifier; the candidate
host (owned by the transaction until commit or discard) is held by value. -/
structure UpdateMetadata where
  mExpireTime : Nat
  mId : Nat
  mHost : Host
  mDnsMessageId : Nat
  mPeer : Nat
deriving Repr, DecidableEq

/-- `UpdateMetadata::Matches` on a service-update transaction id. -/
def UpdateMetadata.MatchesId (u : UpdateMetadata) (aId : Nat) : Bool :=
  u.mId == aId

/-- The SRP server state (`Server`): the accepted domain, lease bounds, the
registry of hosts, the outstanding-update list and the transaction-id
counter. -/
structure Server where
  mDomain : Option String
  mLeaseConfig : LeaseConfig
  mHosts : List Host
  mOutstandingUpdates : List UpdateMetadata
  mServiceUpdateId : Nat
  mEnabled : Bool
deriving Repr, DecidableEq

/-- Lookup of a registered host by full name (`mHosts.FindMatching`). -/
def findHost (hosts : List Host) (aFullName : String) : Option Host :=
  hosts.find? (fun h => h.Matches aFullName)

/-- The full names of all services of all registered hosts, in registry
order; `Server::FindService` searches this collection. -/
def allServiceNames (hosts : List Host) : List String :=
  hosts.foldr (fun h acc => h.mServices.map Service.mFullName ++ acc) []

/-- `Server::FindService` — lookup of a service by full name over all hosts. -/
def FindService (hosts : List Host) (aFullName : String) : Option Service :=
  hosts.foldr (fun h acc => (h.mServices.find? (fun s => s.Matches aFullName)).orElse (fun _ => acc)) none

/-- Modelled from the spec: `Server::HasNameConflictsWith` — a candidate
conflicts iff a host of the same name is already registered with a
different key; a registered host with no key yet is treated as no
conflict. -/
def HasNameConflictsWith (hosts : List Host) (aHost : Host) : Bool :=
  match findHost hosts aHost.mFullName with
  | some existing =>
    match existing.mKey with
    | some k => !(aHost.mKey == some k)
    | none => false
  | none => false

/-- `Server::AllocateId` (header, inline): returns `mServiceUpdateId++`;
the counter is a `uint32`, so the increment wraps modulo `2 ^ 32`. -/
def Server.AllocateId (s : Server) : Nat × Server :=
  (s.mServiceUpdateId, { s with mServiceUpdateId := (s.mServiceUpdateId + 1) % 2 ^ 32 })

/-- The transaction id produced by the n-th call to `AllocateId` (0-based)
in a run of the server starting from state `s`. -/
def Server.idAt (s : Server) : Nat → Nat
  | 0 => s.AllocateId.1
  | n + 1 => Server.idAt s.AllocateId.2 n

/-- Modelled from the spec: `Server::HandleUpdate` — after parsing, a
verified candidate is rejected as `Unauthorized` when the signature check
failed, as `NameConflict` when it collides with a different registered
key, and otherwise a transaction with a fresh id and absolute deadline
`now + timeout` is registered and the external handler is invoked (the
response stays pending, returned here as `none`). -/
def Server.HandleUpdate (s : Server) (aHost : Host) (sigOk : Bool)
    (dnsId peer : Nat) (now timeout : Nat) : Server × Option Response :=
  if !sigOk then (s, some Response.Unauthorized)
  else if HasNameConflictsWith s.mHosts aHost then (s, some Response.NameConflict)
  else
    let u : UpdateMetadata := ⟨now + timeout, s.AllocateId.1, aHost, dnsId, peer⟩
    ({ s.AllocateId.2 with mOutstandingUpdates := u :: s.mOutstandingUpdates }, none)

/-- Does some service name of the candidate already occur under a different
registered host?  (Service-name uniqueness is enforced at commit time.) -/
def serviceNameClash (hosts : List Host) (aHost : Host) : Bool :=
  aHost.mServices.any (fun sv =>
    hosts.any (fun h =>
      !(h.mFullName == aHost.mFullName) && h.mServices.any (fun s => s.mFullName == sv.mFullName)))

/-- Modelled from the spec: assembling the full replacement Host before it
is swapped into the registry.  Building the replacement copies the host
and each of its services; `budget` counts the allocation units still
available, and the assembly fails (returning `none`, to be reported as
`ServerFailure`) when they are exhausted. -/
def assembleCommitHost (budget : Nat) (aHost : Host) (now : Nat) : Option Host :=
  if budget < 1 + aHost.mServices.length then none
  else some { aHost with
              mTimeLastUpdate := now,
              mServices := aHost.mServices.map (fun sv => { sv with mTimeLastUpdate := now }) }

/-- Replacement of the (first) host of the given name by `new`, or insertion
of `new` at the end when no host of that name is registered. -/
def commitIntoHosts (new : Host) : List Host → List Host
  | [] => [new]
  | h :: rest =>
    if h.mFullName == new.mFullName then new :: rest else h :: commitIntoHosts new rest

/-- Transition of the host of the candidate's name to the deleted state
(the host-deletion commit path). -/
def deleteMatching (hosts : List Host) (aHost : Host) (now : Nat) : List Host :=
  hosts.map (fun h =>
    if h.mFullName == aHost.mFullName then h.makeDeleted aHost.mKeyLease now else h)

/-- Modelled from the spec: `Server::CommitSrpUpdate` — the registry-mutation
part of committing a successful update.  A pure deletion (lease 0)
transitions the existing host of that name to the deleted state (name and
key retained).  Otherwise the full replacement is assembled first and only
then swapped in (replacing the host of the same name, or inserted as a new
host); allocation exhaustion while assembling aborts the commit as
`ServerFailure` with the registry untouched, and a service name already
registered under a different host is rejected as a conflict. -/
def CommitSrpUpdate (budget : Nat) (hosts : List Host) (aHost : Host)
    (now : Nat) : List Host × Response :=
  if aHost.mLease == 0 then
    if hosts.any (fun h => h.Matches aHost.mFullName) then
      (deleteMatching hosts aHost now, Response.Success)
    else (hosts, Response.Success)
  else if serviceNameClash hosts aHost then (hosts, Response.NameConflict)
  else
    match assembleCommitHost budget aHost now with
    | none => (hosts, Response.ServerFailure)
    | some newHost => (commitIntoHosts newHost hosts, Response.Success)

/-- Modelled from the spec: `Server::HandleServiceUpdateResult` — the pending
transaction is looked up by id; if absent (already completed or timed out)
this is a no-op and no response is sent.  Otherwise the transaction is
removed from the pending set and exactly one response is sent: on success
the candidate is committed into the registry, on failure it is discarded
and `ServerFailure` is reported. -/
def Server.HandleServiceUpdateResult (s : Server) (aId : Nat) (success : Bool)
    (budget : Nat) (now : Nat) : Server × List Response :=
  match s.mOutstandingUpdates.find? (fun u => u.MatchesId aId) with
  | none => (s, [])
  | some u =>
    let pending := s.mOutstandingUpdates.filter (fun v => !(v.MatchesId aId))
    if success then
      ({ s with mHosts := (CommitSrpUpdate budget s.mHosts u.mHost now).1,
                mOutstandingUpdates := pending },
       [(CommitSrpUpdate budget s.mHosts u.mHost now).2])
    else
      ({ s with mOutstandingUpdates := pending }, [Response.ServerFailure])

/-- Modelled from the spec: the per-host action of the lease timer — a live
host whose lease has elapsed transitions to the deleted state (retaining
name and key, key-lease unchanged); any other host is untouched. -/
def Host.afterLeaseCheck (h : Host) (now : Nat) : Host :=
  if !h.IsDeleted && decide (h.GetExpireTime ≤ now)
  then h.makeDeleted h.mKeyLease h.mTimeLastUpdate else h

/-- Modelled from the spec: `Server::HandleLeaseTimer` — the sweep at instant
`now`: every live host whose lease has elapsed transitions to the deleted
state (retaining name and key), and every host whose key-lease has elapsed
is removed entirely. -/
def HandleLeaseTimer (now : Nat) : List Host → List Host
  | [] => []
  | h :: rest =>
    if (h.afterLeaseCheck now).GetKeyExpireTime ≤ now then HandleLeaseTimer now rest
    else h.afterLeaseCheck now :: HandleLeaseTimer now rest

/-- Iterated lease-timer sweeps at the given instants, in order. -/
def runLeaseSweeps (hosts : List Host) (ts : List Nat) : List Host :=
  ts.foldl (fun hs t => HandleLeaseTimer t hs) hosts

/-- Modelled from the spec: `Server::HandleOutstandingUpdatesTimer` — the
timeout sweep at instant `now`: every pending transaction whose deadline
has passed is resolved as a failure (one `ServerFailure` response each,
candidate discarded); the registry is not touched. -/
def Server.HandleOutstandingUpdatesTimer (s : Server) (now : Nat) : Server × List Response :=
  let expired := s.mOutstandingUpdates.filter (fun u => decide (u.mExpireTime ≤ now))
  ({ s with mOutstandingUpdates := s.mOutstandingUpdates.filter (fun u => !decide (u.mExpireTime ≤ now)) },
   expired.map (fun _ => Response.ServerFailure))

/-- Iterated timeout sweeps at the given instants, in order. -/
def runTimeoutSweeps (s : Server) (ts : List Nat) : Server :=
  ts.foldl (fun st t => (st.HandleOutstandingUpdatesTimer t).1) s

/-- The domain returned when `SetDomain` has never succeeded (header doc). -/
def kDefaultDomain : String := "default.service.arpa."

/-- `Server::GetDomain`: the configured domain, or `"default.service.arpa."`
when no domain was ever set. -/
def Server.GetDomain (s : Server) : String :=
  s.mDomain.getD kDefaultDomain

/-- Does the string end with a dot character? -/
def endsWithDot (d : String) : Bool := d.data.getLast? == some '.'

/-- The labels of a domain-name character list, split at every dot. -/
def splitLabels : List Char → List (List Char)
  | [] => [[]]
  | c :: rest =>
    match splitLabels rest with
    | [] => []
    | l :: ls => if c = '.' then [] :: l :: ls else (c :: l) :: ls

/-- Modelled from the spec: validity of a domain-name argument — the name
(ignoring one optional trailing dot) must be nonempty and made of nonempty
dot-separated labels. -/
def isValidDomainString (d : String) : Bool :=
  let core := if endsWithDot d then d.data.dropLast else d.data
  !core.isEmpty && (splitLabels core).all (fun l => !l.isEmpty)

/-- Errors returned by the configuration surface. -/
inductive ConfigError where
  | InvalidState
  | InvalidArgs
  | NoBufs
deriving Repr, DecidableEq

/-- Modelled from the spec: `Server::SetDomain` — rejected once the server
is enabled (`InvalidState`) or when the argument is not a valid domain
name (`InvalidArgs`) or when no memory is left (`NoBufs`, modelled by a
zero budget); otherwise the domain is stored with a trailing dot appended
if it is not already there. -/
def Server.SetDomain (s : Server) (aDomain : String) (budget : Nat) : Server × Option ConfigError :=
  if s.mEnabled then (s, some ConfigError.InvalidState)
  else if !isValidDomainString aDomain then (s, some ConfigError.InvalidArgs)
  else if budget == 0 then (s, some ConfigError.NoBufs)
  else ({ s with mDomain := some (if endsWithDot aDomain then aDomain else aDomain ++ ".") }, none)

/-- Modelled from the spec: `Server::SetLeaseConfig` — the configuration is
stored only when valid, otherwise `InvalidArgs` is returned. -/
def Server.SetLeaseConfig (s : Server) (c : LeaseConfig) : Server × Option ConfigError :=
  if c.IsValid then ({ s with mLeaseConfig := c }, none)
  else (s, some ConfigError.InvalidArgs)

/-- Modelled from the spec: the freshly constructed server — empty registry,
no outstanding updates, no domain configured, default lease bounds,
disabled; the id counter starts at an arbitrary in-range value, taken
here as 0. -/
def initialServer : Server :=
  ⟨none, LeaseConfig.default, [], [], 0, false⟩

/-- One event of the single-threaded event loop: an inbound validated update,
an external-handler result, a lease-timer tick, an outstanding-updates
timer tick, or a configuration call.  The `wf` hypothesis on an inbound
candidate records that the parser never produces two services of the same
full name in one candidate. -/
inductive Step : Server → Server → Prop where
  | update {s : Server} (aHost : Host) (sigOk : Bool) (dnsId peer : Nat)
      (now timeout : Nat)
      (wf : (aHost.mServices.map Service.mFullName).Nodup) :
      Step s (s.HandleUpdate aHost sigOk dnsId peer now timeout).1
  | result {s : Server} (aId : Nat) (success : Bool) (budget : Nat) (now : Nat) :
      Step s (s.HandleServiceUpdateResult aId success budget now).1
  | leaseTimer {s : Server} (now : Nat) :
      Step s { s with mHosts := HandleLeaseTimer now s.mHosts }
  | updatesTimer {s : Server} (now : Nat) :
      Step s (s.HandleOutstandingUpdatesTimer now).1
  | setDomain {s : Server} (aDomain : String) (budget : Nat) :
      Step s (s.SetDomain aDomain budget).1
  | setLeaseConfig {s : Server} (c : LeaseConfig) :
      Step s (s.SetLeaseConfig c).1
  | setEnabled {s : Server} (b : Bool) :
      Step s { s with mEnabled := b }

/-- A server state reachable from the freshly constructed server by a
sequence of events. -/
inductive Reachable : Server → Prop where
  | init : Reachable initialServer
  | step {s s' : Server} : Reachable s → Step s s' → Reachable s'

/-- The ids of the currently outstanding update transactions. -/
def pendingIds (s : Server) : List Nat :=
  s.mOutstandingUpdates.map UpdateMetadata.mId

/-- A sample key, used to instantiate theorems on concrete inputs. -/
def sampleKey : Ecdsa256KeyRecord := ⟨[1]⟩

/-- A second, different sample key. -/
def sampleKey2 : Ecdsa256KeyRecord := ⟨[2]⟩

/-- A sample service instance. -/
def sampleService : Service :=
  ⟨"inst._http._tcp.default.service.arpa.", 0, 0, 80, [7], 0, false⟩

/-- A sample live host owning `sampleService`. -/
def sampleHost : Host :=
  ⟨"foo.default.service.arpa.", [3], some sampleKey, 1800, 86400, 0, [sampleService]⟩

/-- A sample deletion candidate (lease 0) for `sampleHost`'s name. -/
def sampleDeletion : Host :=
  ⟨"foo.default.service.arpa.", [], some sampleKey, 0, 86400, 0, []⟩

/-- A sample server with one registered host and one outstanding update. -/
def sampleServer : Server :=
  ⟨none, LeaseConfig.default, [sampleHost], [⟨100, 7, sampleHost, 1, 2⟩], 8, true⟩

/-- A sample candidate claiming `sampleHost`'s name with a different key. -/
def conflictCandidate : Host :=
  ⟨"foo.default.service.arpa.", [4], some sampleKey2, 1800, 86400, 0, []⟩

/-- Does the character list end in exactly one dot (it ends with a dot and
the character before that, if any, is not a dot)? -/
def hasExactlyOneTrailingDot (cs : List Char) : Bool :=
  cs.getLast? == some '.' && !(cs.dropLast.getLast? == some '.')

/-- The full names of the registered hosts, in registry order. -/
def hostNames (hs : List Host) : List String :=
  hs.map Host.mFullName

/-- The state invariant maintained by the server's event loop: host names
are pairwise distinct, service names are pairwise distinct across all
hosts, every pending candidate's own service names are pairwise distinct,
and every deleted host owns only deleted services. -/
def Inv (s : Server) : Prop :=
  (hostNames s.mHosts).Nodup ∧
  (allServiceNames s.mHosts).Nodup ∧
  (∀ u ∈ s.mOutstandingUpdates, (u.mHost.mServices.map Service.mFullName).Nodup) ∧
  (∀ h ∈ s.mHosts, h.IsDeleted = true → ∀ sv ∈ h.mServices, sv.IsDeleted = true)

/-- A sample tombstone service (deleted, name retained). -/
def tombstoneService : Service :=
  ⟨"s.default.service.arpa.", 0, 0, 0, [], 0, true⟩

/-- A sample live candidate carrying a tombstone service. -/
def tombstoneCandidate : Host :=
  ⟨"a.default.service.arpa.", [9], some sampleKey, 1800, 86400, 0, [tombstoneService]⟩

/-- The server after the validated update for `sampleHost` was accepted. -/
def runState1 : Server := (initialServer.HandleUpdate sampleHost true 0 0 0 1000).1

/-- The server after the external handler approved that update. -/
def runState2 : Server := (runState1.HandleServiceUpdateResult 0 true 5 0).1

/-- The server after a lease-timer sweep at 2 000 000 ms, past
`sampleHost`'s lease expiry but before its key-lease expiry. -/
def runState3 : Server :=
  { runState2 with mHosts := HandleLeaseTimer 2000000 runState2.mHosts }

/-- The server after the validated update for `tombstoneCandidate` was
accepted. -/
def tombRun1 : Server := (initialServer.HandleUpdate tombstoneCandidate true 0 0 0 1000).1

/-- The server after the external handler approved that update. -/
def tombRun2 : Server := (tombRun1.HandleServiceUpdateResult 0 true 5 0).1

/-- The committed form of `sampleService` after its host was deleted by the
lease-timer sweep (resources cleared, tombstone flag set). -/
def sampleServiceCommitted : Service :=
  ⟨"inst._http._tcp.default.service.arpa.", 0, 0, 0, [], 0, true⟩

/-- The deleted form of `sampleHost` after the lease-timer sweep of
`runState3` (lease 0, addresses cleared, tombstone service retained). -/
def sampleHostDeleted : Host :=
  ⟨"foo.default.service.arpa.", [], some sampleKey, 0, 86400, 0, [sampleServiceCommitted]⟩

end Srp

namespace Srp

/-! Helper lemmas -/

lemma idAt_eq (n : Nat) : ∀ (s : Server), s.mServiceUpdateId < 2 ^ 32 →
    s.idAt n = (s.mServiceUpdateId + n) % 2 ^ 32 := by
  induction n with
  | zero =>
    intro s h
    show s.mServiceUpdateId = (s.mServiceUpdateId + 0) % 2 ^ 32
    rw [Nat.add_zero, Nat.mod_eq_of_lt h]
  | succ n ih =>
    intro s h
    simp only [Server.idAt]
    rw [ih _ (Nat.mod_lt _ (by norm_num))]
    simp only [Server.AllocateId]
    rw [Nat.mod_add_mod]
    congr 1
    omega

lemma find?_pending_none (s : Server) (aId : Nat) :
    (s.mOutstandingUpdates.filter (fun v => !(v.MatchesId aId))).find?
      (fun u => u.MatchesId aId) = none := by
  rw [List.find?_eq_none]
  intro x hx
  have hpx := (List.mem_filter.mp hx).2
  simp [UpdateMetadata.MatchesId] at hpx ⊢
  exact hpx

lemma find?_false_none (l : List UpdateMetadata) :
    l.find? (fun _ => false) = none := by
  rw [List.find?_eq_none]
  intro x hx
  simp

/-! Claim theorems -/

/-- Claim C1: registry commit is atomic — for every candidate host and every
pre-commit registry state, if the commit does not succeed (in particular on
resource exhaustion while assembling the replacement, reported as
`ServerFailure`), the registry's set of hosts and services is exactly the
state it held before the attempt; no half-updated host is observable. -/
theorem C1_commit_atomic (budget : Nat) (hosts : List Host) (aHost : Host)
    (now : Nat)
    (hfail : (CommitSrpUpdate budget hosts aHost now).2 ≠ Response.Success) :
    (CommitSrpUpdate budget hosts aHost now).1 = hosts := by
  by_cases h0 : aHost.mLease == 0
  · exfalso
    apply hfail
    simp only [CommitSrpUpdate, h0, if_true]
    split <;> rfl
  · by_cases hc : serviceNameClash hosts aHost
    · simp [CommitSrpUpdate, h0, hc]
    · cases hA : assembleCommitHost budget aHost now with
      | none => simp [CommitSrpUpdate, h0, hc, hA]
      | some nh =>
        exfalso
        apply hfail
        simp [CommitSrpUpdate, h0, hc, hA]

/-- Witness for C1 at a concrete input: a zero allocation budget makes the
commit fail, and the empty registry is left exactly as it was. -/
theorem C1_commit_atomic_witness :
    (CommitSrpUpdate 0 [] sampleHost 5).1 = [] :=
  C1_commit_atomic 0 [] sampleHost 5 (by decide)

/-- Claim C2: lease clamping law — for every requested lease `L`, the
granted lease equals `max (minLease) (min L maxLease)`, except when
`L = 0` (explicit deletion), in which case the granted lease is exactly 0;
the analogous law holds for `GrantKeyLease` with the key-lease bounds. -/
theorem C2_lease_clamping (c : LeaseConfig) (aLease aKeyLease : Nat) :
    (aLease = 0 → c.GrantLease aLease = 0) ∧
    (aLease ≠ 0 → c.GrantLease aLease = max c.mMinLease (min aLease c.mMaxLease)) ∧
    (aKeyLease = 0 → c.GrantKeyLease aKeyLease = 0) ∧
    (aKeyLease ≠ 0 →
      c.GrantKeyLease aKeyLease = max c.mMinKeyLease (min aKeyLease c.mMaxKeyLease)) := by
  refine ⟨fun h => ?_, fun h => ?_, fun h => ?_, fun h => ?_⟩ <;>
    simp [LeaseConfig.GrantLease, LeaseConfig.GrantKeyLease, h, Nat.min_comm]

/-- Witness for C2 at concrete inputs: with the default bounds, a request of
10000 s is clamped to the claimed formula and a request of 0 is granted 0. -/
theorem C2_lease_clamping_witness :
    LeaseConfig.default.GrantLease 10000
        = max LeaseConfig.default.mMinLease (min 10000 LeaseConfig.default.mMaxLease) ∧
      LeaseConfig.default.GrantLease 0 = 0 ∧
      LeaseConfig.default.GrantKeyLease 100
        = max LeaseConfig.default.mMinKeyLease (min 100 LeaseConfig.default.mMaxKeyLease) :=
  ⟨(C2_lease_clamping LeaseConfig.default 10000 100).2.1 (by decide),
   (C2_lease_clamping LeaseConfig.default 0 0).1 rfl,
   (C2_lease_clamping LeaseConfig.default 10000 100).2.2.2 (by decide)⟩

/-- Claim C7, counterexample: the `uint32` transaction-id counter wraps, so
the ids are not strictly increasing over the whole process lifetime — with
the counter starting at 0, the allocation at position `2 ^ 32` yields the
same id (0) as the allocation at position 0, not a strictly larger one. -/
theorem C7_id_wraparound_counterexample :
    ¬ (initialServer.idAt 0 < initialServer.idAt (2 ^ 32)) := by
  have h0 : initialServer.idAt 0 = 0 := by
    rw [idAt_eq 0 initialServer (by norm_num [initialServer])]
    norm_num [initialServer]
  have h1 : initialServer.idAt (2 ^ 32) = 0 := by
    rw [idAt_eq (2 ^ 32) initialServer (by norm_num [initialServer])]
    norm_num [initialServer]
  omega

/-- Claim C7 as amended: transaction ids are strictly increasing as long as
the `uint32` counter does not wrap — for any two allocations in a run, if
the first happens before the second and the counter stays below `2 ^ 32`
through the second allocation, the first id is strictly smaller. -/
theorem C7_id_monotonic_no_wrap (s : Server) (n₁ n₂ : Nat) (h : n₁ < n₂)
    (hw : s.mServiceUpdateId + n₂ < 2 ^ 32) :
    s.idAt n₁ < s.idAt n₂ := by
  have hc : s.mServiceUpdateId < 2 ^ 32 := by omega
  rw [idAt_eq n₁ s hc, idAt_eq n₂ s hc,
      Nat.mod_eq_of_lt (by omega), Nat.mod_eq_of_lt (by omega)]
  omega

/-- Witness for the amended C7 at a concrete input: the first two ids of a
fresh server are strictly increasing. -/
theorem C7_id_monotonic_no_wrap_witness :
    initialServer.idAt 0 < initialServer.idAt 1 :=
  C7_id_monotonic_no_wrap initialServer 0 1 (by decide) (by norm_num [initialServer])

/-- Claim C8: outcome reporting is at-most-once effective — the first
`HandleServiceUpdateResult` call for a pending transaction id sends exactly
one response and removes the id from the pending set, and any later call
with the same id is a no-op with no state change and no response sent. -/
theorem C8_result_at_most_once (s : Server) (aId : Nat) (o o' : Bool)
    (b b' : Nat) (t t' : Nat) (h : aId ∈ pendingIds s) :
    (s.HandleServiceUpdateResult aId o b t).2.length = 1 ∧
    aId ∉ pendingIds (s.HandleServiceUpdateResult aId o b t).1 ∧
    Server.HandleServiceUpdateResult (s.HandleServiceUpdateResult aId o b t).1 aId o' b' t'
      = ((s.HandleServiceUpdateResult aId o b t).1, []) := by
  have hfind : s.mOutstandingUpdates.find? (fun v => v.MatchesId aId) ≠ none := by
    obtain ⟨u, hu_mem, hu_id⟩ : ∃ u ∈ s.mOutstandingUpdates, u.mId = aId := by
      simpa [pendingIds] using h
    rw [Ne, List.find?_eq_none]
    push_neg
    exact ⟨u, hu_mem, by simp [UpdateMetadata.MatchesId, hu_id]⟩
  obtain ⟨u₀, hu₀⟩ := Option.ne_none_iff_exists'.mp hfind
  simp only [Server.HandleServiceUpdateResult, hu₀]
  cases o <;>
  · refine ⟨by simp, ?_, ?_⟩
    · simp [pendingIds, List.mem_filter, UpdateMetadata.MatchesId]
    · simp [find?_pending_none, find?_false_none]

/-- Witness for C8 at a concrete input: on `sampleServer`, resolving pending
transaction 7 responds once, un-pends 7, and a second resolution is a no-op. -/
theorem C8_result_at_most_once_witness :
    (sampleServer.HandleServiceUpdateResult 7 true 5 0).2.length = 1 ∧
    7 ∉ pendingIds (sampleServer.HandleServiceUpdateResult 7 true 5 0).1 ∧
    Server.HandleServiceUpdateResult
        (sampleServer.HandleServiceUpdateResult 7 true 5 0).1 7 false 5 0
      = ((sampleServer.HandleServiceUpdateResult 7 true 5 0).1, []) :=
  C8_result_at_most_once sampleServer 7 true false 5 5 0 0 (by decide)

/-- Claim C5: name-conflict rejection — a validated update whose candidate
name equals the name of a registered host carrying a different key is
answered `NameConflict` with the whole server state (hence the existing
entry) unchanged; with no registered host of that name, or a matching (or
not yet present) registered key, verification succeeds and the update
proceeds to the pending phase. -/
theorem C5_name_conflict_rejection (s : Server) (aHost : Host)
    (dnsId peer : Nat) (now timeout : Nat) :
    (∀ e k, findHost s.mHosts aHost.mFullName = some e → e.mKey = some k →
      aHost.mKey ≠ some k →
      s.HandleUpdate aHost true dnsId peer now timeout = (s, some Response.NameConflict)) ∧
    ((findHost s.mHosts aHost.mFullName = none ∨
      (∃ e, findHost s.mHosts aHost.mFullName = some e ∧
        (e.mKey = none ∨ e.mKey = aHost.mKey))) →
      (s.HandleUpdate aHost true dnsId peer now timeout).2 = none) := by
  constructor
  · intro e k hfind hkey hne
    have hconf : HasNameConflictsWith s.mHosts aHost = true := by
      simp [HasNameConflictsWith, hfind, hkey, hne]
    simp [Server.HandleUpdate, hconf]
  · intro hcase
    have hconf : HasNameConflictsWith s.mHosts aHost = false := by
      rcases hcase with hnone | ⟨e, hfind, hk | hk⟩
      · simp [HasNameConflictsWith, hnone]
      · simp [HasNameConflictsWith, hfind, hk]
      · cases hak : aHost.mKey with
        | none => simp [HasNameConflictsWith, hfind, hk, hak]
        | some k => simp [HasNameConflictsWith, hfind, hk, hak]
    simp [Server.HandleUpdate, hconf]

/-- Witness for C5 at a concrete input: registering `sampleHost`'s name with
a different key against `sampleServer` is rejected as a name conflict and
the server state is untouched. -/
theorem C5_name_conflict_rejection_witness :
    sampleServer.HandleUpdate conflictCandidate true 1 2 0 1000
      = (sampleServer, some Response.NameConflict) :=
  (C5_name_conflict_rejection sampleServer conflictCandidate 1 2 0 1000).1
    sampleHost sampleKey (by decide) (by decide) (by decide)

lemma data_append (a b : String) : (a ++ b).data = a.data ++ b.data := rfl

lemma splitLabels_ne_nil : ∀ cs : List Char, splitLabels cs ≠ []
  | [] => by simp [splitLabels]
  | c :: rest => by
    have hne := splitLabels_ne_nil rest
    show (match splitLabels rest with
          | [] => []
          | l :: ls => if c = '.' then [] :: l :: ls else (c :: l) :: ls) ≠ []
    cases h : splitLabels rest with
    | nil => exact absurd h hne
    | cons l ls => by_cases hc : c = '.' <;> simp [hc]

lemma splitLabels_cons_ne_singleton_nil (r : Char) (rs : List Char) :
    splitLabels (r :: rs) ≠ [[]] := by
  show (match splitLabels rs with
        | [] => []
        | l :: ls => if r = '.' then [] :: l :: ls else (r :: l) :: ls) ≠ [[]]
  cases h : splitLabels rs with
  | nil => exact absurd h (splitLabels_ne_nil rs)
  | cons l ls => by_cases hc : r = '.' <;> simp [hc]

lemma splitLabels_last_nil : ∀ cs : List Char, cs.getLast? = some '.' →
    (splitLabels cs).getLast? = some ([] : List Char)
  | [], h => by simp at h
  | [c], h => by
    simp at h
    subst h
    rfl
  | c :: r :: rs, h => by
    rw [List.getLast?_cons_cons] at h
    have ih := splitLabels_last_nil (r :: rs) h
    show (match splitLabels (r :: rs) with
          | [] => []
          | l :: ls => if c = '.' then [] :: l :: ls else (c :: l) :: ls).getLast?
        = some ([] : List Char)
    cases hsp : splitLabels (r :: rs) with
    | nil => exact absurd hsp (splitLabels_ne_nil _)
    | cons l ls =>
      rw [hsp] at ih
      by_cases hc : c = '.'
      · show (if c = '.' then [] :: l :: ls else (c :: l) :: ls).getLast?
            = some ([] : List Char)
        rw [if_pos hc, List.getLast?_cons_cons]
        exact ih
      · show (if c = '.' then [] :: l :: ls else (c :: l) :: ls).getLast?
            = some ([] : List Char)
        rw [if_neg hc]
        cases ls with
        | nil =>
          simp at ih
          subst ih
          exact absurd hsp (splitLabels_cons_ne_singleton_nil r rs)
        | cons l₂ ls₂ =>
          rw [List.getLast?_cons_cons]
          rw [List.getLast?_cons_cons] at ih
          exact ih

lemma valid_normalize_one_dot (d : String) (hv : isValidDomainString d = true) :
    hasExactlyOneTrailingDot (if endsWithDot d then d else d ++ ".").data = true := by
  by_cases he : endsWithDot d
  · simp only [he, if_true]
    have hlast : d.data.getLast? = some '.' := by
      simpa [endsWithDot] using he
    have hcore : d.data.dropLast.getLast? ≠ some '.' := by
      intro hdot
      have h1 := splitLabels_last_nil _ hdot
      have h2 : ([] : List Char) ∈ splitLabels d.data.dropLast :=
        List.mem_of_mem_getLast? h1
      simp only [isValidDomainString, he, if_true, Bool.and_eq_true] at hv
      have hall := hv.2
      have := List.all_eq_true.mp hall _ h2
      simp at this
    simp [hasExactlyOneTrailingDot, hlast, hcore]
  · have hlast : d.data.getLast? ≠ some '.' := by
      simpa [endsWithDot] using he
    simp only [he, if_false]
    have hdata : (d ++ ".").data = d.data ++ ['.'] := data_append d "."
    simp [hasExactlyOneTrailingDot, hdata, List.getLast?_concat,
      List.dropLast_concat, hlast]

/-- Claim C10: default and normalized domain — before any successful
`SetDomain`, `GetDomain` returns `"default.service.arpa."`; and every
domain accepted by `SetDomain` is subsequently returned by `GetDomain`
with exactly one trailing dot (appended when the argument lacked it,
unchanged when already present). -/
theorem C10_domain_default_and_normalization (s : Server) (d : String)
    (budget : Nat) (hacc : (s.SetDomain d budget).2 = none) :
    Server.GetDomain initialServer = "default.service.arpa." ∧
    Server.GetDomain (s.SetDomain d budget).1
      = (if endsWithDot d then d else d ++ ".") ∧
    hasExactlyOneTrailingDot (Server.GetDomain (s.SetDomain d budget).1).data = true := by
  have he : s.mEnabled = false := by
    by_contra hne
    have h1 : s.mEnabled = true := by cases h : s.mEnabled <;> simp_all
    simp [Server.SetDomain, h1] at hacc
  have hv : isValidDomainString d = true := by
    by_contra hnv
    have h1 : isValidDomainString d = false := by
      cases h : isValidDomainString d <;> simp_all
    simp [Server.SetDomain, he, h1] at hacc
  have hb : (budget == 0) = false := by
    by_contra hnb
    have h1 : (budget == 0) = true := by cases h : budget == 0 <;> simp_all
    simp [Server.SetDomain, he, hv, h1] at hacc
  refine ⟨rfl, ?_, ?_⟩
  · simp [Server.SetDomain, he, hv, hb, Server.GetDomain]
  · simp only [Server.SetDomain, he, hv, hb, Server.GetDomain, Bool.not_true,
      Bool.false_eq_true, if_false, if_true, Option.getD_some]
    exact valid_normalize_one_dot d hv

/-- Witness for C10 at a concrete input: setting `"example.com"` on a fresh
server is accepted and `GetDomain` then returns it with the dot appended. -/
theorem C10_domain_default_and_normalization_witness :
    Server.GetDomain initialServer = "default.service.arpa." ∧
    Server.GetDomain (initialServer.SetDomain "example.com" 1).1
      = (if endsWithDot "example.com" then "example.com" else "example.com" ++ ".") ∧
    hasExactlyOneTrailingDot
      (Server.GetDomain (initialServer.SetDomain "example.com" 1).1).data = true :=
  C10_domain_default_and_normalization initialServer "example.com" 1 (by decide)

lemma exists_first_multiple (a d : Nat) (hd : 0 < d) :
    ∃ n, a ≤ n * d ∧ n * d < a + d ∧ ∀ j, j < n → j * d < a := by
  induction a using Nat.strong_induction_on with
  | _ a ih =>
    by_cases h0 : a = 0
    · exact ⟨0, by omega, by omega, by omega⟩
    · by_cases hle : a ≤ d
      · refine ⟨1, by omega, by omega, ?_⟩
        intro j hj
        have hj0 : j = 0 := by omega
        subst hj0
        omega
      · obtain ⟨n', h1, h2, h3⟩ := ih (a - d) (by omega)
        have hmul : (n' + 1) * d = n' * d + d := by ring
        refine ⟨n' + 1, by omega, by omega, ?_⟩
        intro j hj
        cases j with
        | zero => omega
        | succ j' =>
          have hj' := h3 j' (by omega)
          have hmul' : (j' + 1) * d = j' * d + d := by ring
          omega

lemma sweep_hosts_unchanged (s : Server) (t : Nat) :
    (s.HandleOutstandingUpdatesTimer t).1.mHosts = s.mHosts := rfl

lemma run_sweeps_hosts_unchanged (ts : List Nat) : ∀ s : Server,
    (runTimeoutSweeps s ts).mHosts = s.mHosts := by
  induction ts with
  | nil => intro s; rfl
  | cons t ts ih =>
    intro s
    show (runTimeoutSweeps (s.HandleOutstandingUpdatesTimer t).1 ts).mHosts = s.mHosts
    rw [ih]
    rfl

lemma mem_sweep_of_lt {s : Server} {u : UpdateMetadata} (t : Nat)
    (hu : u ∈ s.mOutstandingUpdates) (ht : t < u.mExpireTime) :
    u ∈ (s.HandleOutstandingUpdatesTimer t).1.mOutstandingUpdates := by
  simp only [Server.HandleOutstandingUpdatesTimer]
  exact List.mem_filter.mpr ⟨hu, by simp; omega⟩

lemma not_mem_sweep_of_le {s : Server} {u : UpdateMetadata} (t : Nat)
    (ht : u.mExpireTime ≤ t) :
    u ∉ (s.HandleOutstandingUpdatesTimer t).1.mOutstandingUpdates := by
  intro hmem
  simp only [Server.HandleOutstandingUpdatesTimer] at hmem
  have := (List.mem_filter.mp hmem).2
  simp at this
  omega

lemma serverfailure_mem_sweep {s : Server} {u : UpdateMetadata} (t : Nat)
    (hu : u ∈ s.mOutstandingUpdates) (ht : u.mExpireTime ≤ t) :
    Response.ServerFailure ∈ (s.HandleOutstandingUpdatesTimer t).2 := by
  simp only [Server.HandleOutstandingUpdatesTimer]
  exact List.mem_map.mpr ⟨u, List.mem_filter.mpr ⟨hu, by simp [ht]⟩, rfl⟩

lemma mem_run_sweeps {u : UpdateMetadata} (ts : List Nat) : ∀ s : Server,
    u ∈ s.mOutstandingUpdates → (∀ t ∈ ts, t < u.mExpireTime) →
    u ∈ (runTimeoutSweeps s ts).mOutstandingUpdates := by
  induction ts with
  | nil => intro s hu _; exact hu
  | cons t ts ih =>
    intro s hu hall
    show u ∈ (runTimeoutSweeps (s.HandleOutstandingUpdatesTimer t).1 ts).mOutstandingUpdates
    exact ih _ (mem_sweep_of_lt t hu (hall t (by simp)))
      (fun t' ht' => hall t' (by simp [ht']))

/-- Claim C6: timeout determinism — a pending transaction whose handler
never calls back is never resolved before its absolute deadline
(`mExpireTime`), every timeout sweep leaves the registry unmodified, and
under a periodic sweep schedule starting at `s₀ ≤ deadline` with period
`Δ > 0` there is a sweep instant in `[deadline, deadline + Δ)` that is
the first to resolve it, resolving it as `ServerFailure` with the
registry still exactly as before. -/
theorem C6_timeout_determinism (s : Server) (u : UpdateMetadata)
    (hu : u ∈ s.mOutstandingUpdates) (s₀ Δ : Nat) (hΔ : 0 < Δ)
    (hstart : s₀ ≤ u.mExpireTime) :
    (∀ t, t < u.mExpireTime →
      u ∈ (s.HandleOutstandingUpdatesTimer t).1.mOutstandingUpdates) ∧
    (∀ t, (s.HandleOutstandingUpdatesTimer t).1.mHosts = s.mHosts) ∧
    (∃ n,
      u.mExpireTime ≤ s₀ + n * Δ ∧
      s₀ + n * Δ < u.mExpireTime + Δ ∧
      u ∈ (runTimeoutSweeps s ((List.range n).map (fun i => s₀ + i * Δ))).mOutstandingUpdates ∧
      u ∉ ((runTimeoutSweeps s ((List.range n).map (fun i => s₀ + i * Δ))).HandleOutstandingUpdatesTimer
            (s₀ + n * Δ)).1.mOutstandingUpdates ∧
      Response.ServerFailure ∈
        ((runTimeoutSweeps s ((List.range n).map (fun i => s₀ + i * Δ))).HandleOutstandingUpdatesTimer
            (s₀ + n * Δ)).2 ∧
      ((runTimeoutSweeps s ((List.range n).map (fun i => s₀ + i * Δ))).HandleOutstandingUpdatesTimer
            (s₀ + n * Δ)).1.mHosts = s.mHosts) := by
  refine ⟨fun t ht => mem_sweep_of_lt t hu ht, fun t => sweep_hosts_unchanged s t, ?_⟩
  obtain ⟨n, h1, h2, h3⟩ := exists_first_multiple (u.mExpireTime - s₀) Δ hΔ
  have hbefore : u ∈ (runTimeoutSweeps s ((List.range n).map (fun i => s₀ + i * Δ))).mOutstandingUpdates := by
    refine mem_run_sweeps _ s hu ?_
    intro t htm
    obtain ⟨i, hi, rfl⟩ := List.mem_map.mp htm
    have := h3 i (List.mem_range.mp hi)
    omega
  refine ⟨n, by omega, by omega, hbefore, ?_, ?_, ?_⟩
  · exact not_mem_sweep_of_le _ (by omega)
  · exact serverfailure_mem_sweep _ hbefore (by omega)
  · rw [sweep_hosts_unchanged, run_sweeps_hosts_unchanged]

/-- Witness for C6 at a concrete input: the pending transaction of
`sampleServer` (deadline 100), with sweeps every 30 ms starting at 0. -/
theorem C6_timeout_determinism_witness :
    (∀ t, t < (100 : Nat) →
      (⟨100, 7, sampleHost, 1, 2⟩ : UpdateMetadata)
        ∈ (sampleServer.HandleOutstandingUpdatesTimer t).1.mOutstandingUpdates) ∧
    (∀ t, (sampleServer.HandleOutstandingUpdatesTimer t).1.mHosts = sampleServer.mHosts) ∧
    (∃ n,
      (100 : Nat) ≤ 0 + n * 30 ∧
      0 + n * 30 < 100 + 30 ∧
      (⟨100, 7, sampleHost, 1, 2⟩ : UpdateMetadata)
        ∈ (runTimeoutSweeps sampleServer ((List.range n).map (fun i => 0 + i * 30))).mOutstandingUpdates ∧
      (⟨100, 7, sampleHost, 1, 2⟩ : UpdateMetadata)
        ∉ ((runTimeoutSweeps sampleServer ((List.range n).map (fun i => 0 + i * 30))).HandleOutstandingUpdatesTimer
            (0 + n * 30)).1.mOutstandingUpdates ∧
      Response.ServerFailure ∈
        ((runTimeoutSweeps sampleServer ((List.range n).map (fun i => 0 + i * 30))).HandleOutstandingUpdatesTimer
            (0 + n * 30)).2 ∧
      ((runTimeoutSweeps sampleServer ((List.range n).map (fun i => 0 + i * 30))).HandleOutstandingUpdatesTimer
            (0 + n * 30)).1.mHosts = sampleServer.mHosts) :=
  C6_timeout_determinism sampleServer ⟨100, 7, sampleHost, 1, 2⟩ (by decide)
    0 30 (by decide) (by decide)

lemma hostNames_cons (h : Host) (t : List Host) :
    hostNames (h :: t) = h.mFullName :: hostNames t := rfl

lemma allServiceNames_cons (h : Host) (t : List Host) :
    allServiceNames (h :: t) = h.mServices.map Service.mFullName ++ allServiceNames t := rfl

lemma map_name_of_preserveSv (f : Service → Service)
    (hf : ∀ s, (f s).mFullName = s.mFullName) (l : List Service) :
    (l.map f).map Service.mFullName = l.map Service.mFullName := by
  rw [List.map_map]
  exact List.map_congr_left (fun a _ => hf a)

lemma hostNames_map_of_preserve (f : Host → Host)
    (hf : ∀ h, (f h).mFullName = h.mFullName) (l : List Host) :
    hostNames (l.map f) = hostNames l := by
  unfold hostNames
  rw [List.map_map]
  exact List.map_congr_left (fun a _ => hf a)

lemma makeDeleted_serviceNames (h : Host) (kl t : Nat) :
    (h.makeDeleted kl t).mServices.map Service.mFullName
      = h.mServices.map Service.mFullName :=
  map_name_of_preserveSv Service.markDeleted (fun _ => rfl) h.mServices

lemma makeDeleted_services_deleted (h : Host) (kl t : Nat) :
    ∀ sv ∈ (h.makeDeleted kl t).mServices, sv.IsDeleted = true := by
  intro sv hsv
  simp only [Host.makeDeleted, List.mem_map] at hsv
  obtain ⟨sv₀, -, rfl⟩ := hsv
  rfl

lemma mem_allServiceNames {n : String} : ∀ hs : List Host,
    (n ∈ allServiceNames hs ↔ ∃ h ∈ hs, n ∈ h.mServices.map Service.mFullName)
  | [] => by simp [allServiceNames]
  | h :: t => by
    rw [allServiceNames_cons, List.mem_append, mem_allServiceNames t]
    constructor
    · rintro (hm | ⟨g, hg, hgm⟩)
      · exact ⟨h, List.mem_cons_self h t, hm⟩
      · exact ⟨g, List.mem_cons_of_mem h hg, hgm⟩
    · rintro ⟨g, hg, hgm⟩
      rcases List.mem_cons.mp hg with rfl | hg
      · exact Or.inl hgm
      · exact Or.inr ⟨g, hg, hgm⟩

lemma commitIntoHosts_cons_pos {h new : Host} (t : List Host)
    (hh : (h.mFullName == new.mFullName) = true) :
    commitIntoHosts new (h :: t) = new :: t := by
  simp [commitIntoHosts, hh]

lemma commitIntoHosts_cons_neg {h new : Host} (t : List Host)
    (hh : (h.mFullName == new.mFullName) = false) :
    commitIntoHosts new (h :: t) = h :: commitIntoHosts new t := by
  simp [commitIntoHosts, hh]

lemma hostNames_commitIntoHosts (new : Host) : ∀ hs : List Host,
    hostNames (commitIntoHosts new hs)
      = if hs.any (fun h => h.mFullName == new.mFullName)
        then hostNames hs else hostNames hs ++ [new.mFullName]
  | [] => by simp [commitIntoHosts, hostNames]
  | h :: t => by
    cases hh : (h.mFullName == new.mFullName) with
    | true =>
      have hname : h.mFullName = new.mFullName := by simpa using hh
      rw [commitIntoHosts_cons_pos t hh, hostNames_cons, hostNames_cons]
      simp [List.any_cons, hh, hname]
    | false =>
      rw [commitIntoHosts_cons_neg t hh, hostNames_cons,
          hostNames_commitIntoHosts new t]
      simp only [List.any_cons, hh, Bool.false_or]
      by_cases hat : (t.any (fun g => g.mFullName == new.mFullName)) = true
      · simp [hat, hostNames_cons]
      · simp only [Bool.not_eq_true] at hat
        simp [hat, hostNames_cons]

lemma nodup_hostNames_commitInto (new : Host) (hs : List Host)
    (hA : (hostNames hs).Nodup) :
    (hostNames (commitIntoHosts new hs)).Nodup := by
  rw [hostNames_commitIntoHosts]
  by_cases h : (hs.any (fun g => g.mFullName == new.mFullName)) = true
  · simp [h, hA]
  · simp only [Bool.not_eq_true] at h
    simp only [h, Bool.false_eq_true, if_false]
    rw [List.nodup_append]
    refine ⟨hA, List.nodup_singleton _, ?_⟩
    intro a ha hb
    simp only [List.mem_singleton] at hb
    subst hb
    obtain ⟨g, hg, hgname⟩ := List.mem_map.mp ha
    have := List.any_eq_false.mp h g hg
    simp [hgname] at this

lemma mem_commitIntoHosts {x new : Host} : ∀ hs : List Host,
    x ∈ commitIntoHosts new hs → x ∈ hs ∨ x = new
  | [] => by simp [commitIntoHosts]
  | h :: t => by
    cases hh : (h.mFullName == new.mFullName) with
    | true =>
      rw [commitIntoHosts_cons_pos t hh]
      intro hx
      rcases List.mem_cons.mp hx with rfl | hx
      · exact Or.inr rfl
      · exact Or.inl (List.mem_cons_of_mem h hx)
    | false =>
      rw [commitIntoHosts_cons_neg t hh]
      intro hx
      rcases List.mem_cons.mp hx with rfl | hx
      · exact Or.inl (List.mem_cons_self x t)
      · rcases mem_commitIntoHosts t hx with hx | hx
        · exact Or.inl (List.mem_cons_of_mem h hx)
        · exact Or.inr hx

lemma mem_allSN_commitInto {n : String} {new : Host} : ∀ hs : List Host,
    n ∈ allServiceNames (commitIntoHosts new hs) →
    n ∈ allServiceNames hs ∨ n ∈ new.mServices.map Service.mFullName
  | [] => by
    intro hx
    rcases List.mem_append.mp hx with hx | hx
    · exact Or.inr hx
    · simp [allServiceNames] at hx
  | h :: t => by
    intro hx
    cases hh : (h.mFullName == new.mFullName) with
    | true =>
      rw [commitIntoHosts_cons_pos t hh, allServiceNames_cons] at hx
      rcases List.mem_append.mp hx with hx | hx
      · exact Or.inr hx
      · exact Or.inl (by rw [allServiceNames_cons]; exact List.mem_append.mpr (Or.inr hx))
    | false =>
      rw [commitIntoHosts_cons_neg t hh, allServiceNames_cons] at hx
      rcases List.mem_append.mp hx with hx | hx
      · exact Or.inl (by rw [allServiceNames_cons]; exact List.mem_append.mpr (Or.inl hx))
      · rcases mem_allSN_commitInto t hx with hx | hx
        · exact Or.inl (by rw [allServiceNames_cons]; exact List.mem_append.mpr (Or.inr hx))
        · exact Or.inr hx

lemma nodup_allSN_commitInto (new : Host) : ∀ hs : List Host,
    (hostNames hs).Nodup → (allServiceNames hs).Nodup →
    ((new.mServices.map Service.mFullName).Nodup) →
    (∀ n ∈ new.mServices.map Service.mFullName, ∀ g ∈ hs,
        g.mFullName ≠ new.mFullName → n ∉ g.mServices.map Service.mFullName) →
    (allServiceNames (commitIntoHosts new hs)).Nodup
  | [] => by
    intro _ _ hw _
    simpa [commitIntoHosts, allServiceNames_cons, allServiceNames] using hw
  | h :: t => by
    intro hA hB hw hcl
    rw [allServiceNames_cons, List.nodup_append] at hB
    obtain ⟨hBh, hBt, hBd⟩ := hB
    rw [hostNames_cons, List.nodup_cons] at hA
    obtain ⟨hAh, hAt⟩ := hA
    cases hh : (h.mFullName == new.mFullName) with
    | true =>
      have hname : h.mFullName = new.mFullName := by simpa using hh
      rw [commitIntoHosts_cons_pos t hh, allServiceNames_cons, List.nodup_append]
      refine ⟨hw, hBt, ?_⟩
      intro n hn hnt
      obtain ⟨g, hg, hgn⟩ := (mem_allServiceNames t).mp hnt
      have hgne : g.mFullName ≠ new.mFullName := by
        intro he
        exact hAh (List.mem_map.mpr ⟨g, hg, by rw [he, hname]⟩)
      exact hcl n hn g (List.mem_cons_of_mem h hg) hgne hgn
    | false =>
      have hname : h.mFullName ≠ new.mFullName := by simpa using hh
      rw [commitIntoHosts_cons_neg t hh, allServiceNames_cons, List.nodup_append]
      refine ⟨hBh, nodup_allSN_commitInto new t hAt hBt hw
        (fun n hn g hg hne => hcl n hn g (List.mem_cons_of_mem h hg) hne), ?_⟩
      intro n hn hnc
      rcases mem_allSN_commitInto t hnc with hnt | hnnew
      · exact hBd hn hnt
      · exact hcl n hnnew h (List.mem_cons_self h t) hname hn

lemma afterLeaseCheck_name (h : Host) (now : Nat) :
    (h.afterLeaseCheck now).mFullName = h.mFullName := by
  unfold Host.afterLeaseCheck
  split <;> rfl

lemma afterLeaseCheck_serviceNames (h : Host) (now : Nat) :
    (h.afterLeaseCheck now).mServices.map Service.mFullName
      = h.mServices.map Service.mFullName := by
  unfold Host.afterLeaseCheck
  split
  · exact makeDeleted_serviceNames h h.mKeyLease h.mTimeLastUpdate
  · rfl

lemma afterLeaseCheck_of_deleted {h : Host} (now : Nat)
    (hd : h.IsDeleted = true) : h.afterLeaseCheck now = h := by
  unfold Host.afterLeaseCheck
  simp [hd]

lemma afterLeaseCheck_keyExpire (h : Host) (now : Nat) :
    (h.afterLeaseCheck now).GetKeyExpireTime = h.GetKeyExpireTime := by
  unfold Host.afterLeaseCheck
  split <;> rfl

lemma hostNames_sweep_sublist (now : Nat) : ∀ hs : List Host,
    (hostNames (HandleLeaseTimer now hs)).Sublist (hostNames hs)
  | [] => by simp [HandleLeaseTimer]
  | h :: t => by
    simp only [HandleLeaseTimer]
    by_cases hk : (h.afterLeaseCheck now).GetKeyExpireTime ≤ now
    · simp only [hk, if_true, hostNames_cons]
      exact (hostNames_sweep_sublist now t).trans (List.sublist_cons_self _ _)
    · simp only [hk, if_false, hostNames_cons, afterLeaseCheck_name]
      exact List.Sublist.cons₂ _ (hostNames_sweep_sublist now t)

lemma allSN_sweep_sublist (now : Nat) : ∀ hs : List Host,
    (allServiceNames (HandleLeaseTimer now hs)).Sublist (allServiceNames hs)
  | [] => by simp [HandleLeaseTimer, allServiceNames]
  | h :: t => by
    simp only [HandleLeaseTimer]
    by_cases hk : (h.afterLeaseCheck now).GetKeyExpireTime ≤ now
    · simp only [hk, if_true, allServiceNames_cons]
      exact (allSN_sweep_sublist now t).trans (List.sublist_append_right _ _)
    · simp only [hk, if_false, allServiceNames_cons, afterLeaseCheck_serviceNames]
      exact List.Sublist.append (List.Sublist.refl _) (allSN_sweep_sublist now t)

lemma mem_sweep {x : Host} (now : Nat) : ∀ hs : List Host,
    x ∈ HandleLeaseTimer now hs → ∃ h ∈ hs, x = h.afterLeaseCheck now
  | [] => by simp [HandleLeaseTimer]
  | h :: t => by
    simp only [HandleLeaseTimer]
    by_cases hk : (h.afterLeaseCheck now).GetKeyExpireTime ≤ now
    · simp only [hk, if_true]
      intro hx
      obtain ⟨g, hg, hgx⟩ := mem_sweep now t hx
      exact ⟨g, List.mem_cons_of_mem h hg, hgx⟩
    · simp only [hk, if_false]
      intro hx
      rcases List.mem_cons.mp hx with rfl | hx
      · exact ⟨h, List.mem_cons_self h t, rfl⟩
      · obtain ⟨g, hg, hgx⟩ := mem_sweep now t hx
        exact ⟨g, List.mem_cons_of_mem h hg, hgx⟩

lemma afterLeaseCheck_deleted_services (h : Host) (now : Nat)
    (hD : h.IsDeleted = true → ∀ sv ∈ h.mServices, sv.IsDeleted = true) :
    (h.afterLeaseCheck now).IsDeleted = true →
    ∀ sv ∈ (h.afterLeaseCheck now).mServices, sv.IsDeleted = true := by
  unfold Host.afterLeaseCheck
  split
  · intro _
    exact makeDeleted_services_deleted h h.mKeyLease h.mTimeLastUpdate
  · exact hD

lemma sweep_deleted_services (now : Nat) (hs : List Host)
    (hD : ∀ h ∈ hs, h.IsDeleted = true → ∀ sv ∈ h.mServices, sv.IsDeleted = true) :
    ∀ x ∈ HandleLeaseTimer now hs, x.IsDeleted = true →
      ∀ sv ∈ x.mServices, sv.IsDeleted = true := by
  intro x hx
  obtain ⟨h, hh, rfl⟩ := mem_sweep now hs hx
  exact afterLeaseCheck_deleted_services h now (hD h hh)

lemma deleteMatching_eq_map (hs : List Host) (c : Host) (now : Nat) :
    deleteMatching hs c now
      = hs.map (fun h =>
          if h.mFullName == c.mFullName then h.makeDeleted c.mKeyLease now else h) := rfl

lemma hostNames_deleteMatching (hs : List Host) (c : Host) (now : Nat) :
    hostNames (deleteMatching hs c now) = hostNames hs := by
  rw [deleteMatching_eq_map]
  exact hostNames_map_of_preserve _ (fun h => by split <;> rfl) hs

lemma allSN_deleteMatching (c : Host) (now : Nat) : ∀ hs : List Host,
    allServiceNames (deleteMatching hs c now) = allServiceNames hs
  | [] => rfl
  | h :: t => by
    show allServiceNames
        ((if h.mFullName == c.mFullName then h.makeDeleted c.mKeyLease now else h)
          :: deleteMatching t c now) = _
    rw [allServiceNames_cons, allServiceNames_cons, allSN_deleteMatching c now t]
    congr 1
    split
    · exact makeDeleted_serviceNames h c.mKeyLease now
    · rfl

lemma deleteMatching_deleted_services (hs : List Host) (c : Host) (now : Nat)
    (hD : ∀ h ∈ hs, h.IsDeleted = true → ∀ sv ∈ h.mServices, sv.IsDeleted = true) :
    ∀ x ∈ deleteMatching hs c now, x.IsDeleted = true →
      ∀ sv ∈ x.mServices, sv.IsDeleted = true := by
  intro x hx
  rw [deleteMatching_eq_map] at hx
  obtain ⟨h, hh, rfl⟩ := List.mem_map.mp hx
  split
  · intro _
    exact makeDeleted_services_deleted h c.mKeyLease now
  · exact hD h hh

lemma serviceNameClash_prop {hs : List Host} {c : Host}
    (hcl : serviceNameClash hs c = false) :
    ∀ n ∈ c.mServices.map Service.mFullName, ∀ g ∈ hs,
      g.mFullName ≠ c.mFullName → n ∉ g.mServices.map Service.mFullName := by
  intro n hn g hg hne hmem
  obtain ⟨sv, hsv, rfl⟩ := List.mem_map.mp hn
  have h1 := List.any_eq_false.mp hcl sv hsv
  simp only [List.any_eq_true, not_exists, not_and, Bool.and_eq_true,
    Bool.not_eq_true', beq_eq_false_iff_ne, ne_eq] at h1
  obtain ⟨sv', hsv', he⟩ := List.mem_map.mp hmem
  have h2 := h1 g hg
  exact h2 hne sv' hsv' (by simp [he])

lemma assemble_eq {b : Nat} {c : Host} {now : Nat} {nh : Host}
    (h : assembleCommitHost b c now = some nh) :
    nh = { c with
           mTimeLastUpdate := now
           mServices := c.mServices.map (fun sv => { sv with mTimeLastUpdate := now }) } := by
  unfold assembleCommitHost at h
  split at h
  · cases h
  · exact (Option.some_inj.mp h).symm

lemma commit_preserves_inv (budget : Nat) (hosts : List Host) (cand : Host)
    (now : Nat)
    (hA : (hostNames hosts).Nodup) (hB : (allServiceNames hosts).Nodup)
    (hwf : (cand.mServices.map Service.mFullName).Nodup)
    (hD : ∀ h ∈ hosts, h.IsDeleted = true → ∀ sv ∈ h.mServices, sv.IsDeleted = true) :
    (hostNames (CommitSrpUpdate budget hosts cand now).1).Nodup ∧
    (allServiceNames (CommitSrpUpdate budget hosts cand now).1).Nodup ∧
    (∀ h ∈ (CommitSrpUpdate budget hosts cand now).1, h.IsDeleted = true →
      ∀ sv ∈ h.mServices, sv.IsDeleted = true) := by
  by_cases h0 : (cand.mLease == 0) = true
  · by_cases hex : (hosts.any (fun h => h.Matches cand.mFullName)) = true
    · have hC : (CommitSrpUpdate budget hosts cand now).1
          = deleteMatching hosts cand now := by
        simp [CommitSrpUpdate, h0, hex]
      rw [hC, hostNames_deleteMatching, allSN_deleteMatching]
      exact ⟨hA, hB, deleteMatching_deleted_services hosts cand now hD⟩
    · have hC : (CommitSrpUpdate budget hosts cand now).1 = hosts := by
        simp only [Bool.not_eq_true] at hex
        simp [CommitSrpUpdate, h0, hex]
      rw [hC]
      exact ⟨hA, hB, hD⟩
  · simp only [Bool.not_eq_true] at h0
    by_cases hcl : serviceNameClash hosts cand = true
    · have hC : (CommitSrpUpdate budget hosts cand now).1 = hosts := by
        simp [CommitSrpUpdate, h0, hcl]
      rw [hC]
      exact ⟨hA, hB, hD⟩
    · simp only [Bool.not_eq_true] at hcl
      cases hAs : assembleCommitHost budget cand now with
      | none =>
        have hC : (CommitSrpUpdate budget hosts cand now).1 = hosts := by
          simp [CommitSrpUpdate, h0, hcl, hAs]
        rw [hC]
        exact ⟨hA, hB, hD⟩
      | some nh =>
        have hC : (CommitSrpUpdate budget hosts cand now).1
            = commitIntoHosts nh hosts := by
          simp [CommitSrpUpdate, h0, hcl, hAs]
        have hnh := assemble_eq hAs
        have hnames : nh.mServices.map Service.mFullName
            = cand.mServices.map Service.mFullName := by
          rw [hnh]
          show (cand.mServices.map (fun sv => { sv with mTimeLastUpdate := now })).map
              Service.mFullName = cand.mServices.map Service.mFullName
          exact map_name_of_preserveSv (fun sv => { sv with mTimeLastUpdate := now })
            (fun _ => rfl) cand.mServices
        have hfn : nh.mFullName = cand.mFullName := by rw [hnh]
        rw [hC]
        refine ⟨nodup_hostNames_commitInto nh hosts hA, ?_, ?_⟩
        · refine nodup_allSN_commitInto nh hosts hA hB (by rw [hnames]; exact hwf) ?_
          intro n hn g hg hne
          rw [hnames] at hn
          rw [hfn] at hne
          exact serviceNameClash_prop hcl n hn g hg hne
        · intro x hx
          rcases mem_commitIntoHosts hosts hx with hx | rfl
          · exact hD x hx
          · intro hdel
            rw [hnh] at hdel
            simp only [Host.IsDeleted] at hdel
            simp [h0] at hdel

lemma handleUpdate_hosts (s : Server) (a : Host) (g : Bool) (i p n tmo : Nat) :
    (s.HandleUpdate a g i p n tmo).1.mHosts = s.mHosts := by
  unfold Server.HandleUpdate
  split_ifs <;> rfl

lemma handleUpdate_pending_sub (s : Server) (a : Host) (g : Bool) (i p n tmo : Nat) :
    ∀ v ∈ (s.HandleUpdate a g i p n tmo).1.mOutstandingUpdates,
      v ∈ s.mOutstandingUpdates ∨ v.mHost = a := by
  unfold Server.HandleUpdate
  split_ifs <;> intro v hv
  · exact Or.inl hv
  · exact Or.inl hv
  · rcases List.mem_cons.mp hv with rfl | hv
    · exact Or.inr rfl
    · exact Or.inl hv

lemma setDomain_hosts (s : Server) (d : String) (b : Nat) :
    (s.SetDomain d b).1.mHosts = s.mHosts := by
  unfold Server.SetDomain
  split_ifs <;> rfl

lemma setDomain_pending (s : Server) (d : String) (b : Nat) :
    (s.SetDomain d b).1.mOutstandingUpdates = s.mOutstandingUpdates := by
  unfold Server.SetDomain
  split_ifs <;> rfl

lemma setLeaseConfig_hosts (s : Server) (c : LeaseConfig) :
    (s.SetLeaseConfig c).1.mHosts = s.mHosts := by
  unfold Server.SetLeaseConfig
  split_ifs <;> rfl

lemma setLeaseConfig_pending (s : Server) (c : LeaseConfig) :
    (s.SetLeaseConfig c).1.mOutstandingUpdates = s.mOutstandingUpdates := by
  unfold Server.SetLeaseConfig
  split_ifs <;> rfl

lemma reachable_inv {s : Server} (h : Reachable s) : Inv s := by
  induction h with
  | init =>
    exact ⟨by simp [initialServer, hostNames], by simp [initialServer, allServiceNames],
      by simp [initialServer], by simp [initialServer]⟩
  | step hr hst ih =>
    obtain ⟨ihA, ihB, ihC, ihD⟩ := ih
    cases hst with
    | update aHost sigOk dnsId peer now timeout wf =>
      refine ⟨?_, ?_, ?_, ?_⟩
      · rw [handleUpdate_hosts]; exact ihA
      · rw [handleUpdate_hosts]; exact ihB
      · intro v hv
        rcases handleUpdate_pending_sub _ _ _ _ _ _ _ v hv with hv | hv
        · exact ihC v hv
        · rw [hv]; exact wf
      · rw [handleUpdate_hosts]; exact ihD
    | result aId success budget now =>
      rename_i s'
      cases hfind : s'.mOutstandingUpdates.find? (fun v => v.MatchesId aId) with
      | none =>
        have hs' : (s'.HandleServiceUpdateResult aId success budget now).1 = s' := by
          simp [Server.HandleServiceUpdateResult, hfind]
        rw [hs']
        exact ⟨ihA, ihB, ihC, ihD⟩
      | some u =>
        have hwf := ihC u (List.mem_of_find?_eq_some hfind)
        cases success with
        | false =>
          have hH : (s'.HandleServiceUpdateResult aId false budget now).1.mHosts
              = s'.mHosts := by
            simp [Server.HandleServiceUpdateResult, hfind]
          have hP : (s'.HandleServiceUpdateResult aId false budget now).1.mOutstandingUpdates
              = s'.mOutstandingUpdates.filter (fun v => !(v.MatchesId aId)) := by
            simp [Server.HandleServiceUpdateResult, hfind]
          refine ⟨by rw [hH]; exact ihA, by rw [hH]; exact ihB, ?_, by rw [hH]; exact ihD⟩
          intro v hv
          rw [hP] at hv
          exact ihC v (List.mem_of_mem_filter hv)
        | true =>
          obtain ⟨cA, cB, cD⟩ :=
            commit_preserves_inv budget s'.mHosts u.mHost now ihA ihB hwf ihD
          have hH : (s'.HandleServiceUpdateResult aId true budget now).1.mHosts
              = (CommitSrpUpdate budget s'.mHosts u.mHost now).1 := by
            simp [Server.HandleServiceUpdateResult, hfind]
          have hP : (s'.HandleServiceUpdateResult aId true budget now).1.mOutstandingUpdates
              = s'.mOutstandingUpdates.filter (fun v => !(v.MatchesId aId)) := by
            simp [Server.HandleServiceUpdateResult, hfind]
          refine ⟨by rw [hH]; exact cA, by rw [hH]; exact cB, ?_, by rw [hH]; exact cD⟩
          intro v hv
          rw [hP] at hv
          exact ihC v (List.mem_of_mem_filter hv)
    | leaseTimer now =>
      rename_i s'
      exact ⟨List.Nodup.sublist (hostNames_sweep_sublist now s'.mHosts) ihA,
        List.Nodup.sublist (allSN_sweep_sublist now s'.mHosts) ihB,
        ihC, sweep_deleted_services now s'.mHosts ihD⟩
    | updatesTimer now =>
      refine ⟨ihA, ihB, ?_, ihD⟩
      intro v hv
      exact ihC v (List.mem_of_mem_filter hv)
    | setDomain d b =>
      refine ⟨by rw [setDomain_hosts]; exact ihA, by rw [setDomain_hosts]; exact ihB,
        ?_, by rw [setDomain_hosts]; exact ihD⟩
      intro v hv
      rw [setDomain_pending] at hv
      exact ihC v hv
    | setLeaseConfig c =>
      refine ⟨by rw [setLeaseConfig_hosts]; exact ihA, by rw [setLeaseConfig_hosts]; exact ihB,
        ?_, by rw [setLeaseConfig_hosts]; exact ihD⟩
      intro v hv
      rw [setLeaseConfig_pending] at hv
      exact ihC v hv
    | setEnabled b =>
      exact ⟨ihA, ihB, ihC, ihD⟩

lemma reachable_runState1 : Reachable runState1 :=
  Reachable.step Reachable.init (Step.update sampleHost true 0 0 0 1000 (by decide))

lemma reachable_runState2 : Reachable runState2 :=
  Reachable.step reachable_runState1 (Step.result 0 true 5 0)

lemma reachable_runState3 : Reachable runState3 :=
  Reachable.step reachable_runState2 (Step.leaseTimer 2000000)

lemma reachable_tombRun2 : Reachable tombRun2 :=
  Reachable.step
    (Reachable.step Reachable.init (Step.update tombstoneCandidate true 0 0 0 1000 (by decide)))
    (Step.result 0 true 5 0)

/-- Claim C3: name uniqueness — in every state reachable by commits,
lease-timer sweeps, timeout sweeps and configuration calls, no two
registered hosts share a full name and no two services (across all hosts)
share a full service-instance name. -/
theorem C3_name_uniqueness (s : Server) (hreach : Reachable s) :
    (hostNames s.mHosts).Nodup ∧ (allServiceNames s.mHosts).Nodup :=
  ⟨(reachable_inv hreach).1, (reachable_inv hreach).2.1⟩

/-- Witness for C3 at a concrete input: the reachable state holding
`sampleHost` with its one service. -/
theorem C3_name_uniqueness_witness :
    (hostNames runState2.mHosts).Nodup ∧ (allServiceNames runState2.mHosts).Nodup :=
  C3_name_uniqueness runState2 reachable_runState2

/-- Claim C9: host deletion implies service deletion — in every reachable
state, every service of a deleted host is itself deleted; and the converse
need not hold: there is a reachable state with a live host owning a
deleted (tombstone) service. -/
theorem C9_host_deleted_implies_services_deleted :
    (∀ s : Server, Reachable s → ∀ h ∈ s.mHosts, h.IsDeleted = true →
      ∀ sv ∈ h.mServices, sv.IsDeleted = true) ∧
    (∃ s : Server, Reachable s ∧ ∃ h ∈ s.mHosts, h.IsDeleted = false ∧
      ∃ sv ∈ h.mServices, sv.IsDeleted = true) := by
  constructor
  · intro s hs
    exact (reachable_inv hs).2.2.2
  · exact ⟨tombRun2, reachable_tombRun2, by decide⟩

/-- Witness for C9 at a concrete input: in the reachable state `runState3`
whose host was deleted by the sweep, the host's retained service is
deleted. -/
theorem C9_host_deleted_implies_services_deleted_witness :
    Service.IsDeleted sampleServiceCommitted = true :=
  C9_host_deleted_implies_services_deleted.1 runState3 reachable_runState3
    sampleHostDeleted (by decide) (by decide) sampleServiceCommitted (by decide)

lemma matches_of_findHost {hs : List Host} {nm : String} {e : Host}
    (hfind : findHost hs nm = some e) : (e.mFullName == nm) = true := by
  rw [findHost] at hfind
  have h := List.find?_some hfind
  simpa [Host.Matches] using h

lemma any_matches_of_findHost {hs : List Host} {nm : String} {e : Host}
    (hfind : findHost hs nm = some e) :
    hs.any (fun h => h.Matches nm) = true := by
  rw [findHost] at hfind
  have h1 := List.find?_some hfind
  exact List.any_eq_true.mpr ⟨e, List.mem_of_find?_eq_some hfind, h1⟩

lemma commit_deletion_eq (budget : Nat) (hs : List Host) (cand : Host) (now : Nat)
    (h0 : (cand.mLease == 0) = true)
    (hex : hs.any (fun h => h.Matches cand.mFullName) = true) :
    (CommitSrpUpdate budget hs cand now).1 = deleteMatching hs cand now := by
  simp [CommitSrpUpdate, h0, hex]

lemma findHost_deleteMatching {c e : Host} (now : Nat) : ∀ hs : List Host,
    findHost hs c.mFullName = some e →
    findHost (deleteMatching hs c now) c.mFullName
      = some (e.makeDeleted c.mKeyLease now)
  | [], hfind => by simp [findHost] at hfind
  | h :: t, hfind => by
    rw [deleteMatching_eq_map, List.map_cons]
    cases hh : (h.mFullName == c.mFullName) with
    | true =>
      rw [findHost, List.find?_cons_of_pos _ (by simpa [Host.Matches] using hh)] at hfind
      have he : h = e := by simpa using hfind
      subst he
      rw [findHost]
      rw [List.find?_cons_of_pos]
      · simp [hh]
      · simp only [hh, if_true]
        show ((h.makeDeleted c.mKeyLease now).mFullName == c.mFullName) = true
        simpa [Host.makeDeleted] using hh
    | false =>
      rw [findHost, List.find?_cons_of_neg _ (by simp [Host.Matches, hh])] at hfind
      have ih := findHost_deleteMatching now t hfind
      rw [findHost, List.find?_cons_of_neg]
      · rw [← deleteMatching_eq_map]
        exact ih
      · simp only [hh, Bool.false_eq_true, if_false]
        simp [Host.Matches, hh]

lemma findHost_none_of_not_mem {nm : String} (hs : List Host)
    (h : nm ∉ hostNames hs) : findHost hs nm = none := by
  rw [findHost, List.find?_eq_none]
  intro x hx hpx
  exact h (List.mem_map.mpr ⟨x, hx, by simpa [Host.Matches] using hpx⟩)

lemma findHost_none_sweep {nm : String} (now : Nat) (hs : List Host)
    (h : findHost hs nm = none) : findHost (HandleLeaseTimer now hs) nm = none := by
  rw [findHost, List.find?_eq_none] at h ⊢
  intro x hx hpx
  obtain ⟨g, hg, rfl⟩ := mem_sweep now hs hx
  refine h g hg ?_
  simpa [Host.Matches, afterLeaseCheck_name] using hpx

lemma findHost_sweep_deleted {nm : String} {hd : Host} (now : Nat) :
    ∀ hs : List Host, (hostNames hs).Nodup →
    findHost hs nm = some hd → hd.IsDeleted = true →
    findHost (HandleLeaseTimer now hs) nm
      = if hd.GetKeyExpireTime ≤ now then none else some hd
  | [], _, hfind, _ => by simp [findHost] at hfind
  | h :: t, hA, hfind, hdel => by
    rw [hostNames_cons, List.nodup_cons] at hA
    obtain ⟨hAh, hAt⟩ := hA
    cases hh : (h.mFullName == nm) with
    | true =>
      rw [findHost, List.find?_cons_of_pos _ (by simpa [Host.Matches] using hh)] at hfind
      have he : h = hd := by simpa using hfind
      subst he
      have hacl : h.afterLeaseCheck now = h := afterLeaseCheck_of_deleted now hdel
      simp only [HandleLeaseTimer, hacl]
      by_cases hk : h.GetKeyExpireTime ≤ now
      · simp only [hk, if_true]
        refine findHost_none_sweep now t (findHost_none_of_not_mem t ?_)
        intro hmem
        have : h.mFullName = nm := by simpa using hh
        rw [← this] at hmem
        exact hAh hmem
      · simp only [hk, if_false]
        rw [findHost, List.find?_cons_of_pos _ (by simpa [Host.Matches] using hh)]
    | false =>
      rw [findHost, List.find?_cons_of_neg _ (by simp [Host.Matches, hh])] at hfind
      have ih := findHost_sweep_deleted now t hAt hfind hdel
      simp only [HandleLeaseTimer]
      by_cases hk : (h.afterLeaseCheck now).GetKeyExpireTime ≤ now
      · simp only [hk, if_true]
        exact ih
      · simp only [hk, if_false]
        rw [findHost, List.find?_cons_of_neg]
        · exact ih
        · simp [Host.Matches, afterLeaseCheck_name, hh]

lemma runLeaseSweeps_cons (hs : List Host) (t : Nat) (ts : List Nat) :
    runLeaseSweeps hs (t :: ts) = runLeaseSweeps (HandleLeaseTimer t hs) ts := rfl

lemma findHost_runLeaseSweeps_none {nm : String} (ts : List Nat) : ∀ hs : List Host,
    findHost hs nm = none → findHost (runLeaseSweeps hs ts) nm = none := by
  induction ts with
  | nil => intro hs h; exact h
  | cons t ts ih =>
    intro hs h
    rw [runLeaseSweeps_cons]
    exact ih _ (findHost_none_sweep t hs h)

lemma findHost_runLeaseSweeps_deleted {nm : String} {hd : Host}
    (hdel : hd.IsDeleted = true) : ∀ (ts : List Nat) (hs : List Host),
    (hostNames hs).Nodup →
    findHost hs nm = some hd →
    ((∀ t ∈ ts, t < hd.GetKeyExpireTime) →
      findHost (runLeaseSweeps hs ts) nm = some hd) ∧
    ((∃ t ∈ ts, hd.GetKeyExpireTime ≤ t) →
      findHost (runLeaseSweeps hs ts) nm = none)
  | [], hs, _, hfind => by
    refine ⟨fun _ => hfind, ?_⟩
    rintro ⟨t, ht, -⟩
    simp at ht
  | t :: ts, hs, hA, hfind => by
    have hsw := findHost_sweep_deleted t hs hA hfind hdel
    by_cases hk : hd.GetKeyExpireTime ≤ t
    · rw [if_pos hk] at hsw
      have hnone : findHost (runLeaseSweeps hs (t :: ts)) nm = none := by
        rw [runLeaseSweeps_cons]
        exact findHost_runLeaseSweeps_none ts _ hsw
      refine ⟨fun hall => ?_, fun _ => hnone⟩
      exact absurd (hall t (List.mem_cons_self t ts)) (not_lt.mpr hk)
    · rw [if_neg hk] at hsw
      have hA' : (hostNames (HandleLeaseTimer t hs)).Nodup :=
        List.Nodup.sublist (hostNames_sweep_sublist t hs) hA
      obtain ⟨ih1, ih2⟩ := findHost_runLeaseSweeps_deleted hdel ts _ hA' hsw
      constructor
      · intro hall
        rw [runLeaseSweeps_cons]
        exact ih1 (fun t' ht' => hall t' (List.mem_cons_of_mem t ht'))
      · rintro ⟨t', ht', hle⟩
        rcases List.mem_cons.mp ht' with rfl | ht'
        · exact absurd hle hk
        · rw [runLeaseSweeps_cons]
          exact ih2 ⟨t', ht', hle⟩

/-- Claim C4: deletion retention — committing a deletion update (lease 0)
for a registered host leaves it findable by name with `IsDeleted` true,
its name and key retained and its key-lease expiry at commit time plus
the granted key-lease; it stays findable in that exact state through
every lease-timer sweep that runs before the key-lease elapses, and it is
absent from the registry after any sweep at or past the key-lease
expiry. -/
theorem C4_deletion_retention (hosts : List Host) (cand e : Host)
    (budget now₀ : Nat) (ts : List Nat)
    (hA : (hostNames hosts).Nodup)
    (h0 : cand.mLease = 0)
    (hfind : findHost hosts cand.mFullName = some e) :
    findHost (CommitSrpUpdate budget hosts cand now₀).1 cand.mFullName
      = some (e.makeDeleted cand.mKeyLease now₀) ∧
    (e.makeDeleted cand.mKeyLease now₀).IsDeleted = true ∧
    (e.makeDeleted cand.mKeyLease now₀).mFullName = e.mFullName ∧
    (e.makeDeleted cand.mKeyLease now₀).mKey = e.mKey ∧
    (e.makeDeleted cand.mKeyLease now₀).GetKeyExpireTime
      = now₀ + cand.mKeyLease * 1000 ∧
    ((∀ t ∈ ts, t < now₀ + cand.mKeyLease * 1000) →
      findHost (runLeaseSweeps (CommitSrpUpdate budget hosts cand now₀).1 ts)
          cand.mFullName = some (e.makeDeleted cand.mKeyLease now₀)) ∧
    ((∃ t ∈ ts, now₀ + cand.mKeyLease * 1000 ≤ t) →
      findHost (runLeaseSweeps (CommitSrpUpdate budget hosts cand now₀).1 ts)
          cand.mFullName = none) := by
  have h0' : (cand.mLease == 0) = true := by simp [h0]
  have hC := commit_deletion_eq budget hosts cand now₀ h0' (any_matches_of_findHost hfind)
  have hfind' := findHost_deleteMatching now₀ hosts hfind
  have hA' : (hostNames (deleteMatching hosts cand now₀)).Nodup := by
    rw [hostNames_deleteMatching]
    exact hA
  have hdel : (e.makeDeleted cand.mKeyLease now₀).IsDeleted = true := rfl
  obtain ⟨hkeep, hgone⟩ :=
    findHost_runLeaseSweeps_deleted hdel ts (deleteMatching hosts cand now₀) hA' hfind'
  rw [hC]
  exact ⟨hfind', hdel, rfl, rfl, rfl, hkeep, hgone⟩

/-- Witness for C4 at concrete inputs: deleting `sampleHost` at 1000 ms; a
sweep at 2000 ms still finds it deleted, and a sweep past the key-lease
expiry removes it. -/
theorem C4_deletion_retention_witness :
    findHost (CommitSrpUpdate 5 [sampleHost] sampleDeletion 1000).1
        sampleDeletion.mFullName
      = some (sampleHost.makeDeleted sampleDeletion.mKeyLease 1000) ∧
    findHost (runLeaseSweeps (CommitSrpUpdate 5 [sampleHost] sampleDeletion 1000).1
        [2000]) sampleDeletion.mFullName
      = some (sampleHost.makeDeleted sampleDeletion.mKeyLease 1000) ∧
    findHost (runLeaseSweeps (CommitSrpUpdate 5 [sampleHost] sampleDeletion 1000).1
        [99999999999]) sampleDeletion.mFullName = none :=
  ⟨(C4_deletion_retention [sampleHost] sampleDeletion sampleHost 5 1000 []
      (by decide) (by decide) (by decide)).1,
   (C4_deletion_retention [sampleHost] sampleDeletion sampleHost 5 1000 [2000]
      (by decide) (by decide) (by decide)).2.2.2.2.2.1 (by decide),
   (C4_deletion_retention [sampleHost] sampleDeletion sampleHost 5 1000 [99999999999]
      (by decide) (by decide) (by decide)).2.2.2.2.2.2 (by decide)⟩

end Srp
